import Mathlib

/-!
Verification of the `OllamaReranking` adapter
(`libs/kotaemon/kotaemon/rerankings/ollama.py`).

Shallow embedding conventions:
* Python `float` values are modelled by `PyVal`: the finite values are exact
  rationals (IEEE rounding is irrelevant to the properties proved here, which
  only compare scores with 0 and 1 and with each other), plus `inf`, `ninf`
  and `nan` with Python's comparison semantics (every comparison involving
  `nan` is false).
* Strings are Lean `String`s; character scanning is done on `String.data`.
  The digit class `\d` of the fallback regex and `str.isdigit`-style checks
  are modelled by ASCII `Char.isDigit`, and `str.strip()` strips ASCII
  whitespace; the claims under study only involve ASCII text.
* The HTTP exchange of `_score_relevance` is abstracted by `HttpOutcome`:
  `transportError` models `session.post` raising (network failure, timeout),
  `response ok body` models a received response where `ok = false` makes
  `raise_for_status()` raise and `body = none` models `response.json()`
  raising on a malformed body.  The JSON value itself is the inductive
  `JsonVal`.  A `run` call consults an oracle `Nat → HttpOutcome` giving the
  outcome of the i-th scoring request; quantifying over all oracles covers
  every possible server behaviour.
* `scoringCalls` instruments the request loop of `run`: it lists, in order,
  the `(query, document text)` argument pairs passed to `_score_relevance`
  (the document text is what `run` interpolates into the scoring prompt).
* Python `list.sort(key=..., reverse=True)` is a stable descending sort;
  `sortDesc` below is a structurally recursive stable descending insertion
  sort, extensionally the same function (the stable sort of a list under a
  total preorder on keys is unique).
-/

/-- Values of a metadata dictionary entry. -/
inductive MetaVal where
  | mstr (s : String)
  | mnum (q : ℚ)
  | mbool (b : Bool)
deriving DecidableEq, Repr

/-- A Python `dict` with string keys (keys pairwise distinct), as an
association list in insertion order. -/
abbrev MetaDict := List (String × MetaVal)

/-- `{**m, k: v}` on the key `k`: overwrite in place if `k` is present,
otherwise append the new entry at the end (Python dict-merge semantics). -/
def dictSet : MetaDict → String → MetaVal → MetaDict
  | [], k, v => [(k, v)]
  | (k0, v0) :: rest, k, v =>
      if k0 = k then (k, v) :: rest else (k0, v0) :: dictSet rest k v

/-- `m.get(k)` on an association list. -/
def dictGet : MetaDict → String → Option MetaVal
  | [], _ => none
  | (k0, v0) :: rest, k => if k0 = k then some v0 else dictGet rest k

/-- The document record: `text` plus an optional metadata dictionary
(`doc.metadata` may be `None` in Python, hence the `Option`). -/
structure Document where
  text : String
  metadata : Option MetaDict
deriving DecidableEq, Repr

/-- A Python float: exact-rational finite values plus the three specials. -/
inductive PyVal where
  | fin (q : ℚ)
  | inf
  | ninf
  | nan
deriving DecidableEq, Repr

/-- Python `<` on floats: comparisons involving `nan` are false. -/
def pyLt : PyVal → PyVal → Bool
  | .fin a, .fin b => a < b
  | .fin _, .inf => true
  | .ninf, .fin _ => true
  | .ninf, .inf => true
  | _, _ => false

/-- Python `min(1.0, x)`: start from `1.0`, replace it by `x` when `x < 1.0`. -/
def pyMin1 (x : PyVal) : PyVal := if pyLt x (.fin 1) then x else .fin 1

/-- Python `max(0.0, x)`: start from `0.0`, replace it by `x` when `0.0 < x`. -/
def pyMax0 (x : PyVal) : PyVal := if pyLt (.fin 0) x then x else .fin 0

/-- `max(0.0, min(1.0, score))` as a Python-float value. -/
def clampVal (x : PyVal) : PyVal := pyMax0 (pyMin1 x)

/-- The rational carried by `clampVal x`; `clampVal` never yields a special
value (`clampVal_eq_fin` below), so the last three arms are dead. -/
def clamp01 (x : PyVal) : ℚ :=
  match clampVal x with
  | .fin q => q
  | .inf => 0
  | .ninf => 0
  | .nan => 0

/-- ASCII whitespace, the characters stripped by `str.strip()` /
skipped by `float()` (the replies under study are ASCII). -/
def isSpace (c : Char) : Bool :=
  c = ' ' || c = '\t' || c = '\n' || c = '\r' || c = '\x0b' || c = '\x0c'

/-- Strip leading and trailing whitespace from a character list. -/
def stripChars (cs : List Char) : List Char :=
  ((cs.dropWhile isSpace).reverse.dropWhile isSpace).reverse

/-- `str.strip()`. -/
def pyStrip (s : String) : String := String.mk (stripChars s.data)

/-- Continue a digit group after one digit has been consumed: digits may be
separated by single underscores, each underscore flanked by digits on both
sides (Python numeric-literal rule).  Returns the further digits collected
(with underscores removed) and the unconsumed remainder. -/
def dgroupCont : List Char → List Char × List Char
  | [] => ([], [])
  | [d] => if d.isDigit then ([d], []) else ([], [d])
  | d :: e :: rest2 =>
      if d.isDigit then
        let p := dgroupCont (e :: rest2)
        (d :: p.1, p.2)
      else if d = '_' ∧ e.isDigit then
        let p := dgroupCont rest2
        (e :: p.1, p.2)
      else ([], d :: e :: rest2)

/-- Parse a digit group (at least one digit, underscores allowed between
digits): the digits collected and the remainder, or `none` if the input does
not start with a digit. -/
def dgroup? (cs : List Char) : Option (List Char × List Char) :=
  match cs with
  | c :: rest =>
      if c.isDigit then
        let (ds, r) := dgroupCont rest
        some (c :: ds, r)
      else none
  | [] => none

/-- Value of a digit string as a natural number. -/
def natOfDigits (cs : List Char) : Nat :=
  cs.foldl (fun n c => 10 * n + (c.toNat - '0'.toNat)) 0

/-- Exact value of `intpart.fracpart` as a rational. -/
def decOfParts (ip fp : List Char) : ℚ :=
  (natOfDigits ip : ℚ) + (natOfDigits fp : ℚ) / (10 : ℚ) ^ fp.length

/-- Parse the unsigned mantissa of a Python float literal:
`digits [. [digits]]` or `. digits`.  Returns its exact value and the
remainder. -/
def mantissa? (cs : List Char) : Option (ℚ × List Char) :=
  match dgroup? cs with
  | some (ds, rest) =>
      match rest with
      | '.' :: rest2 =>
          match dgroup? rest2 with
          | some (fs, rest3) => some (decOfParts ds fs, rest3)
          | none => some (decOfParts ds [], rest2)
      | _ => some (decOfParts ds [], rest)
  | none =>
      match cs with
      | '.' :: rest2 =>
          match dgroup? rest2 with
          | some (fs, rest3) => some (decOfParts [] fs, rest3)
          | none => none
      | _ => none

/-- Parse an optional exponent part `('e'|'E') ['+'|'-'] digits`.  Returns the
signed exponent and remainder; an `e` not followed by a well-formed exponent
makes the whole parse fail. -/
def exponent? (cs : List Char) : Option (Int × List Char) :=
  match cs with
  | c :: rest =>
      if c = 'e' || c = 'E' then
        let sr : Int × List Char :=
          match rest with
          | '+' :: r => (1, r)
          | '-' :: r => (-1, r)
          | r => (1, r)
        match dgroup? sr.2 with
        | some (ds, rest3) => some (sr.1 * (natOfDigits ds : Int), rest3)
        | none => none
      else some (0, c :: rest)
  | [] => some (0, [])

/-- Case-insensitive comparison against a lowercase keyword. -/
def lcIs (cs : List Char) (kw : List Char) : Bool :=
  decide (cs.map Char.toLower = kw)

/-- Python `float(s)`: strip whitespace, optional sign, then `inf`,
`infinity` or `nan` (case-insensitive) or a decimal mantissa with optional
exponent, with nothing left over.  Finite results are exact rationals
(see the header comment); decimal overflow to IEEE infinity is not modelled,
which does not affect any comparison with 0 or 1 proved here.
`signSplit` consumes the optional leading sign. -/
def signSplit (cs : List Char) : Bool × List Char :=
  match cs with
  | '+' :: r => (false, r)
  | '-' :: r => (true, r)
  | r => (false, r)

/-- Python `float(s)` (continued): parse after the optional sign. -/
def pyFloatChars? (cs0 : List Char) : Option PyVal :=
  let cs1 := stripChars cs0
  let neg := (signSplit cs1).1
  let cs2 := (signSplit cs1).2
  if lcIs cs2 ['i', 'n', 'f'] || lcIs cs2 ['i', 'n', 'f', 'i', 'n', 'i', 't', 'y'] then
    some (if neg then .ninf else .inf)
  else if lcIs cs2 ['n', 'a', 'n'] then
    some .nan
  else
    match mantissa? cs2 with
    | some (m, rest) =>
        match exponent? rest with
        | some (e, rest2) =>
            if rest2.isEmpty then
              some (.fin ((if neg then -m else m) * (10 : ℚ) ^ e))
            else none
        | none => none
    | none => none

/-- `float(content)` on a string, `none` meaning `ValueError`. -/
def pyFloat? (s : String) : Option PyVal := pyFloatChars? s.data

/-- First alternative `0?\.\d+` of the fallback pattern, tried at one start
position: an optional `0`, a dot, then one or more digits (greedy), with the
regex-backtracking rule that the optional `0` is tried first. -/
def matchAlt1 : List Char → Option (List Char)
  | c1 :: c2 :: rest =>
      if c1 = '0' ∧ c2 = '.' then
        let ds := rest.takeWhile Char.isDigit
        if ds.isEmpty then none else some ('0' :: '.' :: ds)
      else if c1 = '.' ∧ c2.isDigit then
        some ('.' :: (c2 :: rest).takeWhile Char.isDigit)
      else none
  | _ => none

/-- Second alternative `[01]\.?\d*` of the fallback pattern, tried at one
start position: the digit `0` or `1`, an optional dot, then any run of
digits (greedy). -/
def matchAlt2 : List Char → Option (List Char)
  | [] => none
  | c :: rest =>
      if c = '0' ∨ c = '1' then
        match rest with
        | d :: rest2 =>
            if d = '.' then some (c :: '.' :: rest2.takeWhile Char.isDigit)
            else some (c :: rest.takeWhile Char.isDigit)
        | [] => some [c]
      else none

/-- One attempt of `0?\.\d+|[01]\.?\d*` at a start position: alternatives
are tried left to right. -/
def matchAt (cs : List Char) : Option (List Char) :=
  match matchAlt1 cs with
  | some m => some m
  | none => matchAlt2 cs

/-- The first (leftmost) match of the fallback pattern, i.e.
`re.findall(...)[0]` when the list is non-empty: start positions are tried
left to right. -/
def findFirst : List Char → Option (List Char)
  | [] => none
  | c :: rest =>
      match matchAt (c :: rest) with
      | some m => some m
      | none => findFirst rest

/-- Exact decimal value of a matched numeral (optional integer digits,
optional dot, fraction digits). -/
def decValue (cs : List Char) : ℚ :=
  let ip := cs.takeWhile Char.isDigit
  let rest := cs.dropWhile Char.isDigit
  let fp := match rest with
    | '.' :: fs => fs.takeWhile Char.isDigit
    | _ => []
  decOfParts ip fp

/-- The numeric-extraction logic of `_score_relevance` applied to the
(stripped) reply text `content`:
try `float(content)` and clamp; on `ValueError`, find the first match of
`0?\.\d+|[01]\.?\d*`, parse it with `float` and clamp; with no match the
default is `0.5`.  A `ValueError` from `float(numbers[0])` would escape to
the outer handler and also yield `0.5` (that arm is dead: every match is a
valid float literal, see `pyFloat_of_matched`). -/
def parseScore (content : String) : ℚ :=
  match pyFloat? content with
  | some v => clamp01 v
  | none =>
      match findFirst content.data with
      | some m =>
          match pyFloatChars? m with
          | some v => clamp01 v
          | none => 1/2
      | none => 1/2

/-- A JSON value, the result of `response.json()`. -/
inductive JsonVal where
  | jnull
  | jbool (b : Bool)
  | jnum (q : ℚ)
  | jstr (s : String)
  | jarr (xs : List JsonVal)
  | jobj (fields : List (String × JsonVal))
deriving Repr

/-- Key lookup in the field list of a JSON object. -/
def jGetFields : List (String × JsonVal) → String → Option JsonVal
  | [], _ => none
  | (k0, v0) :: rest, k => if k0 = k then some v0 else jGetFields rest k

/-- `j[k]` for a string key: succeeds only on an object carrying the key
(`KeyError` / `TypeError` otherwise, modelled as `none`). -/
def jGet : JsonVal → String → Option JsonVal
  | .jobj fields, k => jGetFields fields k
  | _, _ => none

/-- `j[i]` for an integer index: succeeds only on an array that is long
enough (`IndexError` / `TypeError` / `KeyError` otherwise). -/
def jIndex : JsonVal → Nat → Option JsonVal
  | .jarr xs, i => xs.get? i
  | _, _ => none

/-- A JSON string, or `none` (a non-string has no `.strip()`:
`AttributeError`). -/
def jStr? : JsonVal → Option String
  | .jstr s => some s
  | _ => none

/-- `result["choices"][0]["message"]["content"]` on the response body. -/
def extractContent (j : JsonVal) : Option String :=
  (jGet j "choices").bind fun cs =>
    (jIndex cs 0).bind fun c0 =>
      (jGet c0 "message").bind fun msg =>
        (jGet msg "content").bind jStr?

/-- Outcome of one scoring HTTP exchange, as seen by `_score_relevance`:
`transportError` = `session.post` raised (network failure, timeout);
`response ok body` = a response arrived, `ok = false` meaning a non-2xx
status (`raise_for_status()` raises) and `body = none` meaning a body that
is not valid JSON (`response.json()` raises). -/
inductive HttpOutcome where
  | transportError
  | response (ok : Bool) (body : Option JsonVal)

/-- `_score_relevance`, given the outcome of its HTTP exchange: every raise
inside the `try` block lands in the catch-all handler, which returns the
default score `0.5`; on a well-formed response the reply text is stripped
and fed to the numeric-extraction logic (`parseScore`). -/
def scoreRelevance (outcome : HttpOutcome) : ℚ :=
  match outcome with
  | .transportError => 1/2
  | .response ok body =>
      if ok then
        match body with
        | none => 1/2
        | some j =>
            match extractContent j with
            | some raw => parseScore (pyStrip raw)
            | none => 1/2
      else 1/2

/-- Adapter configuration (the `Param` fields of `OllamaReranking`), with
the documented defaults.  `max_tokens` is `Optional[int]`. -/
structure Config where
  base_url : String := "http://localhost:11434/v1/"
  model : String := "qwen2.5:7b"
  api_key : String := "ollama"
  max_tokens : Option Int := some 512
  temperature : ℚ := 0
  timeout : Int := 30

/-- Python `text[:n]` for an arbitrary integer `n`. -/
def pySliceTo (s : String) (n : Int) : String :=
  if 0 ≤ n then String.mk (s.data.take n.toNat)
  else String.mk (s.data.take (s.length - (-n).toNat))

/-- `_truncate_text`: `if self.max_tokens and len(text) > self.max_tokens`
— the guard tests truthiness, so `None` and `0` both disable truncation. -/
def truncateText (cfg : Config) (text : String) : String :=
  match cfg.max_tokens with
  | none => text
  | some n => if n ≠ 0 ∧ (text.length : Int) > n then pySliceTo text n else text

/-- The new document built for one input document: same text, metadata a
copy of the input metadata (`{}` when `None`) with `rerank_score` set. -/
def mkScoredDoc (doc : Document) (score : ℚ) : Document :=
  { text := doc.text
    metadata := some (dictSet (doc.metadata.getD []) "rerank_score" (.mnum score)) }

/-- The server abstraction: the outcome of the HTTP exchange for the `i`-th
scoring call of a `run`, which sends the query and the (truncated) document
text in its prompt. -/
abbrev Oracle := Nat → String → String → HttpOutcome

/-- The scoring loop of `run`, threading the index of the next HTTP call:
for each document in order, its text is truncated, one call carrying
`(query, truncated text)` is issued (its outcome given by the oracle), and
the `(score, scored document)` pair is collected. -/
def scoredDocs (cfg : Config) (oracle : Oracle) (query : String) :
    Nat → List Document → List (ℚ × Document)
  | _, [] => []
  | i, doc :: rest =>
      (scoreRelevance (oracle i query (truncateText cfg doc.text)),
       mkScoredDoc doc (scoreRelevance (oracle i query (truncateText cfg doc.text))))
        :: scoredDocs cfg oracle query (i + 1) rest

/-- Insert a pair into a descending-sorted list of pairs, after every
element with a strictly greater score and before the first element whose
score does not exceed it.  Ties therefore keep the already-present element
first. -/
def insertDesc (x : ℚ × Document) : List (ℚ × Document) → List (ℚ × Document)
  | [] => [x]
  | y :: rest => if x.1 < y.1 then y :: insertDesc x rest else x :: y :: rest

/-- `scored_docs.sort(key=lambda x: x[0], reverse=True)`: the stable sort by
score descending.  The stable sort of a list under a total preorder on keys
is unique, so this insertion sort is extensionally the sort performed by
Python - `sortDesc_perm`, `sortDesc_pairwise` and `sortDesc_filter_key`
below establish exactly the permutation / descending-order / stability
characterisation. -/
def sortDesc : List (ℚ × Document) → List (ℚ × Document)
  | [] => []
  | x :: rest => insertDesc x (sortDesc rest)

/-- `run`: return an empty input unchanged; otherwise score every document,
stable-sort the pairs by score descending, and return the documents. -/
def run (cfg : Config) (oracle : Oracle) (query : String)
    (documents : List Document) : List Document :=
  if documents.isEmpty then documents
  else
    (sortDesc (scoredDocs cfg oracle query 0 documents)).map (fun p => p.2)

/-- The `(query, document text)` argument pairs of the `_score_relevance`
calls issued by `run cfg _ query documents`, in order: one call per document
of a non-empty input, with the text passed through `_truncate_text`. -/
def scoringCalls (cfg : Config) (query : String) : List Document → List (String × String)
  | [] => []
  | doc :: rest => (query, truncateText cfg doc.text) :: scoringCalls cfg query rest

/-- The `rerank_score` metadata entry of a document, defaulting to 0 when
absent or non-numeric. -/
def rerankScoreD (d : Document) : ℚ :=
  match dictGet (d.metadata.getD []) "rerank_score" with
  | some (.mnum q) => q
  | _ => 0

/-- The five decimal shapes named by the specification for the fallback
pattern: `0.ddd`, `.ddd`, `0`, `1`, `1.ddd`. -/
def isShape5 (cs : List Char) : Bool :=
  match cs with
  | ['0'] => true
  | ['1'] => true
  | '0' :: '.' :: ds => !ds.isEmpty && ds.all Char.isDigit
  | '1' :: '.' :: ds => !ds.isEmpty && ds.all Char.isDigit
  | '.' :: ds => !ds.isEmpty && ds.all Char.isDigit
  | _ => false

/-- Modelled from the spec (C6): the longest prefix of `cs` that is one of
the five claimed shapes. -/
def shapeAt (cs : List Char) : Option (List Char) :=
  ((List.range (cs.length + 1)).reverse.map (fun k => cs.take k)).find? isShape5

/-- Modelled from the spec (C6): the first substring of the reply that is
one of the five claimed shapes - start positions scanned left to right. -/
def specFirstShape : List Char → Option (List Char)
  | [] => none
  | c :: rest =>
      match shapeAt (c :: rest) with
      | some m => some m
      | none => specFirstShape rest

/-- Modelled from the spec (C6): the score the claim describes for the
fallback path - parse the first claimed-shape substring and clamp, with
default 0.5 when there is none. -/
def specC6Score (content : String) : ℚ :=
  match specFirstShape content.data with
  | some m => clamp01 (.fin (decValue m))
  | none => 1/2

/-- Whether a character list starts with a digit. -/
def headDigit : List Char → Bool
  | d :: _ => d.isDigit
  | [] => false

/-- Whether the reply contains, at some position, the start of a fallback
match: a `0`, a `1`, or a dot followed by a digit.  These are exactly the
one- and two-character openings of the five claimed shapes. -/
def hasShape : List Char → Bool
  | [] => false
  | c :: rest => (c = '0' || c = '1' || (c = '.' && headDigit rest)) || hasShape rest

/-- The digits test applied after skipping an optional leading dot. -/
def digitsAfterOptDot (rest : List Char) : Bool :=
  match rest with
  | d :: ds => if d = '.' then ds.all Char.isDigit else (d :: ds).all Char.isDigit
  | [] => true

/-- The shapes the fallback pattern `0?\.\d+|[01]\.?\d*` can actually
produce: `.ddd` (digits non-empty), or `0`/`1` followed by an optional dot
and any run of digits — so beyond the five claimed shapes also e.g. `0.`,
`1.`, `02`, `19`. -/
def isMatchedShape (cs : List Char) : Bool :=
  match cs with
  | [] => false
  | c :: rest =>
      if c = '.' then !rest.isEmpty && rest.all Char.isDigit
      else if c = '0' ∨ c = '1' then digitsAfterOptDot rest
      else false

theorem clampVal_eq_fin (x : PyVal) : clampVal x = .fin (clamp01 x) := by
  cases x with
  | fin q =>
      by_cases h1 : q < 1
      · by_cases h0 : (0 : ℚ) < q <;>
          simp [clampVal, clamp01, pyMin1, pyMax0, pyLt, h1, h0]
      · simp [clampVal, clamp01, pyMin1, pyMax0, pyLt, h1]
  | inf => simp [clampVal, clamp01, pyMin1, pyMax0, pyLt]
  | ninf => simp [clampVal, clamp01, pyMin1, pyMax0, pyLt]
  | nan => simp [clampVal, clamp01, pyMin1, pyMax0, pyLt]

theorem clamp01_nonneg (x : PyVal) : 0 ≤ clamp01 x := by
  cases x with
  | fin q =>
      by_cases h1 : q < 1 <;> by_cases h0 : (0 : ℚ) < q <;>
        simp [clamp01, clampVal, pyMin1, pyMax0, pyLt, h1, h0] <;> linarith
  | inf => simp [clamp01, clampVal, pyMin1, pyMax0, pyLt]
  | ninf => simp [clamp01, clampVal, pyMin1, pyMax0, pyLt]
  | nan => simp [clamp01, clampVal, pyMin1, pyMax0, pyLt]

theorem clamp01_le_one (x : PyVal) : clamp01 x ≤ 1 := by
  cases x with
  | fin q =>
      by_cases h1 : q < 1 <;> by_cases h0 : (0 : ℚ) < q <;>
        simp [clamp01, clampVal, pyMin1, pyMax0, pyLt, h1, h0] <;> linarith
  | inf => simp [clamp01, clampVal, pyMin1, pyMax0, pyLt]
  | ninf => simp [clamp01, clampVal, pyMin1, pyMax0, pyLt]
  | nan => simp [clamp01, clampVal, pyMin1, pyMax0, pyLt]

theorem insertDesc_perm (x : ℚ × Document) (l : List (ℚ × Document)) :
    (insertDesc x l).Perm (x :: l) := by
  induction l with
  | nil => simp [insertDesc]
  | cons y rest ih =>
      by_cases h : x.1 < y.1
      · simpa [insertDesc, h] using (ih.cons y).trans (List.Perm.swap x y rest)
      · simp [insertDesc, h]

theorem sortDesc_perm (l : List (ℚ × Document)) : (sortDesc l).Perm l := by
  induction l with
  | nil => simp [sortDesc]
  | cons x rest ih =>
      exact (insertDesc_perm x (sortDesc rest)).trans (ih.cons x)

theorem insertDesc_pairwise (x : ℚ × Document) {l : List (ℚ × Document)}
    (h : l.Pairwise (fun a b => b.1 ≤ a.1)) :
    (insertDesc x l).Pairwise (fun a b => b.1 ≤ a.1) := by
  induction l with
  | nil => simp [insertDesc]
  | cons y rest ih =>
      rcases List.pairwise_cons.mp h with ⟨hy, hrest⟩
      by_cases hlt : x.1 < y.1
      · rw [insertDesc, if_pos hlt]
        refine List.pairwise_cons.mpr ⟨?_, ih hrest⟩
        intro z hz
        rcases List.mem_cons.mp ((insertDesc_perm x rest).mem_iff.mp hz) with rfl | hz2
        · exact le_of_lt hlt
        · exact hy z hz2
      · rw [insertDesc, if_neg hlt]
        push_neg at hlt
        refine List.pairwise_cons.mpr ⟨?_, h⟩
        intro z hz
        rcases List.mem_cons.mp hz with rfl | hz2
        · exact hlt
        · exact le_trans (hy z hz2) hlt

theorem sortDesc_pairwise (l : List (ℚ × Document)) :
    (sortDesc l).Pairwise (fun a b => b.1 ≤ a.1) := by
  induction l with
  | nil => simp [sortDesc]
  | cons x rest ih => exact insertDesc_pairwise x ih

theorem insertDesc_filter_eq (x : ℚ × Document) (l : List (ℚ × Document))
    (s : ℚ) (hx : x.1 = s) :
    (insertDesc x l).filter (fun p => decide (p.1 = s)) =
      x :: l.filter (fun p => decide (p.1 = s)) := by
  induction l with
  | nil => simp [insertDesc, hx]
  | cons y rest ih =>
      by_cases hlt : x.1 < y.1
      · have hy : ¬(y.1 = s) := by
          intro he
          rw [hx, ← he] at hlt
          exact lt_irrefl _ hlt
        rw [insertDesc, if_pos hlt]
        simp [List.filter_cons, hy, ih]
      · rw [insertDesc, if_neg hlt]
        simp [List.filter_cons, hx]

theorem insertDesc_filter_ne (x : ℚ × Document) (l : List (ℚ × Document))
    (s : ℚ) (hx : ¬(x.1 = s)) :
    (insertDesc x l).filter (fun p => decide (p.1 = s)) =
      l.filter (fun p => decide (p.1 = s)) := by
  induction l with
  | nil => simp [insertDesc, hx]
  | cons y rest ih =>
      by_cases hlt : x.1 < y.1
      · rw [insertDesc, if_pos hlt]
        simp [List.filter_cons, ih]
      · rw [insertDesc, if_neg hlt]
        simp [List.filter_cons, hx]

/-- Stability of the sort: the equal-score pairs appear in the output in
exactly their input order. -/
theorem sortDesc_filter_key (l : List (ℚ × Document)) (s : ℚ) :
    (sortDesc l).filter (fun p => decide (p.1 = s)) =
      l.filter (fun p => decide (p.1 = s)) := by
  induction l with
  | nil => simp [sortDesc]
  | cons x rest ih =>
      by_cases hx : x.1 = s
      · rw [sortDesc, insertDesc_filter_eq x (sortDesc rest) s hx, ih]
        simp [List.filter_cons, hx]
      · rw [sortDesc, insertDesc_filter_ne x (sortDesc rest) s hx, ih]
        simp [List.filter_cons, hx]

theorem dictGet_dictSet_self (m : MetaDict) (k : String) (v : MetaVal) :
    dictGet (dictSet m k v) k = some v := by
  induction m with
  | nil => simp [dictSet, dictGet]
  | cons kv rest ih =>
      by_cases h : kv.1 = k
      · simp [dictSet, dictGet, h]
      · simpa [dictSet, dictGet, h] using ih

theorem dictGet_dictSet_ne (m : MetaDict) (k : String) (v : MetaVal)
    (k2 : String) (h : k2 ≠ k) :
    dictGet (dictSet m k v) k2 = dictGet m k2 := by
  induction m with
  | nil => simp [dictSet, dictGet, Ne.symm h]
  | cons kv rest ih =>
      obtain ⟨k0, v0⟩ := kv
      by_cases h1 : k0 = k
      · simp [dictSet, dictGet, h1, Ne.symm h]
      · simp [dictSet, dictGet, h1, ih]

theorem rerankScoreD_mkScoredDoc (doc : Document) (s : ℚ) :
    rerankScoreD (mkScoredDoc doc s) = s := by
  simp [rerankScoreD, mkScoredDoc, dictGet_dictSet_self]

theorem scoredDocs_length (cfg : Config) (oracle : Oracle) (query : String)
    (i : Nat) (docs : List Document) :
    (scoredDocs cfg oracle query i docs).length = docs.length := by
  induction docs generalizing i with
  | nil => rfl
  | cons doc rest ih => simp [scoredDocs, ih]

theorem scoredDocs_map_text (cfg : Config) (oracle : Oracle) (query : String)
    (i : Nat) (docs : List Document) :
    (scoredDocs cfg oracle query i docs).map (fun p => p.2.text) =
      docs.map Document.text := by
  induction docs generalizing i with
  | nil => rfl
  | cons doc rest ih => simp [scoredDocs, mkScoredDoc, ih]

theorem mem_scoredDocs {cfg : Config} {oracle : Oracle} {query : String}
    {i : Nat} {docs : List Document} {p : ℚ × Document}
    (h : p ∈ scoredDocs cfg oracle query i docs) :
    ∃ src ∈ docs, p.2 = mkScoredDoc src p.1 := by
  induction docs generalizing i with
  | nil => simp [scoredDocs] at h
  | cons doc rest ih =>
      rcases List.mem_cons.mp h with rfl | h2
      · exact ⟨doc, List.mem_cons_self doc rest, rfl⟩
      · rcases ih h2 with ⟨src, hsrc, hp⟩
        exact ⟨src, List.mem_cons_of_mem doc hsrc, hp⟩

theorem score_of_mem_scoredDocs {cfg : Config} {oracle : Oracle}
    {query : String} {i : Nat} {docs : List Document} {p : ℚ × Document}
    (h : p ∈ scoredDocs cfg oracle query i docs) : rerankScoreD p.2 = p.1 := by
  rcases mem_scoredDocs h with ⟨src, _, hp⟩
  rw [hp, rerankScoreD_mkScoredDoc]

/-- `run` is the documents component of the stable descending sort of the
scored pairs (also when the input is empty). -/
theorem run_eq (cfg : Config) (oracle : Oracle) (query : String)
    (docs : List Document) :
    run cfg oracle query docs =
      (sortDesc (scoredDocs cfg oracle query 0 docs)).map (fun p => p.2) := by
  cases docs with
  | nil => rfl
  | cons doc rest => simp [run]

theorem mem_run {cfg : Config} {oracle : Oracle} {query : String}
    {docs : List Document} {d : Document} (h : d ∈ run cfg oracle query docs) :
    ∃ p ∈ scoredDocs cfg oracle query 0 docs, d = p.2 := by
  rw [run_eq] at h
  rcases List.mem_map.mp h with ⟨p, hp, he⟩
  exact ⟨p, (sortDesc_perm _).mem_iff.mp hp, he.symm⟩

theorem parseScore_nonneg (content : String) : 0 ≤ parseScore content := by
  cases hf : pyFloat? content with
  | some v => simp [parseScore, hf, clamp01_nonneg]
  | none =>
      cases hm : findFirst content.data with
      | some m =>
          cases hp : pyFloatChars? m with
          | some v => simp [parseScore, hf, hm, hp, clamp01_nonneg]
          | none =>
              simp only [parseScore, hf, hm, hp]
              norm_num
      | none =>
          simp only [parseScore, hf, hm]
          norm_num

theorem parseScore_le_one (content : String) : parseScore content ≤ 1 := by
  cases hf : pyFloat? content with
  | some v => simp [parseScore, hf, clamp01_le_one]
  | none =>
      cases hm : findFirst content.data with
      | some m =>
          cases hp : pyFloatChars? m with
          | some v => simp [parseScore, hf, hm, hp, clamp01_le_one]
          | none =>
              simp only [parseScore, hf, hm, hp]
              norm_num
      | none =>
          simp only [parseScore, hf, hm]
          norm_num

theorem scoreRelevance_nonneg (o : HttpOutcome) : 0 ≤ scoreRelevance o := by
  cases o with
  | transportError => simp only [scoreRelevance]; norm_num
  | response ok body =>
      cases ok with
      | false => simp only [scoreRelevance]; norm_num
      | true =>
          cases body with
          | none => simp only [scoreRelevance]; norm_num
          | some j =>
              cases he : extractContent j with
              | some raw => simp [scoreRelevance, he, parseScore_nonneg]
              | none =>
                  simp only [scoreRelevance, he]
                  norm_num

theorem scoreRelevance_le_one (o : HttpOutcome) : scoreRelevance o ≤ 1 := by
  cases o with
  | transportError => simp only [scoreRelevance]; norm_num
  | response ok body =>
      cases ok with
      | false => simp only [scoreRelevance]; norm_num
      | true =>
          cases body with
          | none => simp only [scoreRelevance]; norm_num
          | some j =>
              cases he : extractContent j with
              | some raw => simp [scoreRelevance, he, parseScore_le_one]
              | none =>
                  simp only [scoreRelevance, he]
                  norm_num

/-- Every pair produced by the scoring loop is the score of some call
together with the scored copy of some input document. -/
theorem mem_scoredDocs_full {cfg : Config} {oracle : Oracle} {query : String}
    {i : Nat} {docs : List Document} {p : ℚ × Document}
    (h : p ∈ scoredDocs cfg oracle query i docs) :
    ∃ j src, src ∈ docs ∧
      p = (scoreRelevance (oracle j query (truncateText cfg src.text)),
           mkScoredDoc src (scoreRelevance (oracle j query (truncateText cfg src.text)))) := by
  induction docs generalizing i with
  | nil => simp [scoredDocs] at h
  | cons doc rest ih =>
      rcases List.mem_cons.mp h with rfl | h2
      · exact ⟨i, doc, List.mem_cons_self doc rest, rfl⟩
      · rcases ih h2 with ⟨j, src, hsrc, hp⟩
        exact ⟨j, src, List.mem_cons_of_mem doc hsrc, hp⟩

theorem run_length (cfg : Config) (oracle : Oracle) (query : String)
    (docs : List Document) :
    (run cfg oracle query docs).length = docs.length := by
  rw [run_eq, List.length_map, (sortDesc_perm _).length_eq, scoredDocs_length]

theorem run_pairwise (cfg : Config) (oracle : Oracle) (query : String)
    (docs : List Document) :
    (run cfg oracle query docs).Pairwise
      (fun a b => rerankScoreD b ≤ rerankScoreD a) := by
  rw [run_eq]
  rw [List.pairwise_map]
  refine List.Pairwise.imp_of_mem ?_ (sortDesc_pairwise (scoredDocs cfg oracle query 0 docs))
  intro a b ha hb hab
  have ha2 := score_of_mem_scoredDocs ((sortDesc_perm _).mem_iff.mp ha)
  have hb2 := score_of_mem_scoredDocs ((sortDesc_perm _).mem_iff.mp hb)
  rw [ha2, hb2]
  exact hab

/-- C1: for every query and non-empty document list, the output of `run`
has the same length as the input and its texts are a permutation of the
input texts (each input document's content appears exactly once, none added
or dropped). -/
theorem rerank_perm (cfg : Config) (oracle : Oracle) (query : String)
    (docs : List Document) (h : docs ≠ []) :
    (run cfg oracle query docs).length = docs.length ∧
      ((run cfg oracle query docs).map Document.text).Perm
        (docs.map Document.text) := by
  refine ⟨run_length cfg oracle query docs, ?_⟩
  rw [run_eq, List.map_map]
  have hp := (sortDesc_perm (scoredDocs cfg oracle query 0 docs)).map
    (fun p => p.2.text)
  rw [scoredDocs_map_text] at hp
  exact hp

/-- Witness for C1 at a concrete input. -/
theorem rerank_perm_witness :
    ([(⟨"a", none⟩ : Document)] ≠ []) ∧
      ((run {} (fun _ _ _ => .transportError) "q" [⟨"a", none⟩]).length =
          ([(⟨"a", none⟩ : Document)]).length ∧
        ((run {} (fun _ _ _ => .transportError) "q" [⟨"a", none⟩]).map
            Document.text).Perm ([(⟨"a", none⟩ : Document)].map Document.text)) :=
  ⟨by simp, rerank_perm {} (fun _ _ _ => .transportError) "q" [⟨"a", none⟩] (by simp)⟩

/-- C2: the output of `run` is ordered by non-increasing `rerank_score`:
for positions `i < j`, the score at `j` does not exceed the score at `i`. -/
theorem rerank_sorted (cfg : Config) (oracle : Oracle) (query : String)
    (docs : List Document) (i j : Nat)
    (hi : i < (run cfg oracle query docs).length)
    (hj : j < (run cfg oracle query docs).length) (hij : i < j) :
    rerankScoreD ((run cfg oracle query docs).get ⟨j, hj⟩) ≤
      rerankScoreD ((run cfg oracle query docs).get ⟨i, hi⟩) :=
  (List.pairwise_iff_get.mp (run_pairwise cfg oracle query docs)) ⟨i, hi⟩ ⟨j, hj⟩ hij

/-- Witness for C2 at a concrete input. -/
theorem rerank_sorted_witness :
    rerankScoreD ((run {} (fun _ _ _ => .transportError) "q"
        [⟨"a", none⟩, ⟨"b", none⟩]).get ⟨1, by rw [run_length]; norm_num⟩) ≤
      rerankScoreD ((run {} (fun _ _ _ => .transportError) "q"
        [⟨"a", none⟩, ⟨"b", none⟩]).get ⟨0, by rw [run_length]; norm_num⟩) :=
  rerank_sorted {} (fun _ _ _ => .transportError) "q" [⟨"a", none⟩, ⟨"b", none⟩]
    0 1 (by rw [run_length]; norm_num) (by rw [run_length]; norm_num) (by norm_num)

/-- C3: every score produced by `_score_relevance` lies in [0, 1], whatever
the model reply or error, and so does the `rerank_score` stored on every
output document of `run`. -/
theorem score_bounds :
    (∀ o : HttpOutcome, 0 ≤ scoreRelevance o ∧ scoreRelevance o ≤ 1) ∧
    ∀ (cfg : Config) (oracle : Oracle) (query : String) (docs : List Document)
      (d : Document), d ∈ run cfg oracle query docs →
        0 ≤ rerankScoreD d ∧ rerankScoreD d ≤ 1 := by
  refine ⟨fun o => ⟨scoreRelevance_nonneg o, scoreRelevance_le_one o⟩, ?_⟩
  intro cfg oracle query docs d hd
  rcases mem_run hd with ⟨p, hp, rfl⟩
  rw [score_of_mem_scoredDocs hp]
  rcases mem_scoredDocs_full hp with ⟨j, src, hsrc, hpe⟩
  have hps : p.1 = scoreRelevance (oracle j query (truncateText cfg src.text)) := by
    rw [hpe]
  rw [hps]
  exact ⟨scoreRelevance_nonneg _, scoreRelevance_le_one _⟩

/-- Witness for C3 at a concrete input. -/
theorem score_bounds_witness :
    (0 ≤ scoreRelevance .transportError ∧ scoreRelevance .transportError ≤ 1) ∧
    ((⟨"a", some [("rerank_score", .mnum (1/2))]⟩ : Document) ∈
        run {} (fun _ _ _ => .transportError) "q" [⟨"a", none⟩]) ∧
    (0 ≤ rerankScoreD ⟨"a", some [("rerank_score", .mnum (1/2))]⟩ ∧
      rerankScoreD ⟨"a", some [("rerank_score", .mnum (1/2))]⟩ ≤ 1) := by
  have hrun : run {} (fun _ _ _ => .transportError) "q" [⟨"a", none⟩] =
      [⟨"a", some [("rerank_score", .mnum (1/2))]⟩] := rfl
  have hmem : (⟨"a", some [("rerank_score", .mnum (1/2))]⟩ : Document) ∈
      run {} (fun _ _ _ => .transportError) "q" [⟨"a", none⟩] := by
    rw [hrun]
    exact List.mem_singleton.mpr rfl
  exact ⟨score_bounds.1 .transportError, hmem,
    score_bounds.2 {} (fun _ _ _ => .transportError) "q" [⟨"a", none⟩] _ hmem⟩

/-- C4: the sort is stable on ties — for every score value `s`, the output
documents carrying `rerank_score = s` are exactly the scored copies of the
input documents that received score `s`, in their input order. -/
theorem rerank_stable (cfg : Config) (oracle : Oracle) (query : String)
    (docs : List Document) (s : ℚ) :
    (run cfg oracle query docs).filter (fun d => decide (rerankScoreD d = s)) =
      ((scoredDocs cfg oracle query 0 docs).filter
        (fun p => decide (p.1 = s))).map (fun p => p.2) := by
  rw [run_eq, List.filter_map]
  have hcong : (sortDesc (scoredDocs cfg oracle query 0 docs)).filter
      ((fun d => decide (rerankScoreD d = s)) ∘ (fun p => p.2)) =
      (sortDesc (scoredDocs cfg oracle query 0 docs)).filter
        (fun p => decide (p.1 = s)) := by
    apply List.filter_congr
    intro p hp
    have hsc := score_of_mem_scoredDocs ((sortDesc_perm _).mem_iff.mp hp)
    simp [Function.comp, hsc]
  rw [hcong, sortDesc_filter_key]

/-- C5: each of the four HTTP-level failures (transport error, non-2xx
status, malformed JSON body, missing expected fields) is absorbed into the
default score 0.5, and `run` on non-empty input always returns a list of
the input's length in which every document carries a numeric
`rerank_score`, ordered by non-increasing score. -/
theorem error_absorbed :
    scoreRelevance .transportError = 1/2 ∧
    (∀ body, scoreRelevance (.response false body) = 1/2) ∧
    scoreRelevance (.response true none) = 1/2 ∧
    (∀ j, extractContent j = none →
      scoreRelevance (.response true (some j)) = 1/2) ∧
    (∀ (cfg : Config) (oracle : Oracle) (query : String)
      (docs : List Document), docs ≠ [] →
        (run cfg oracle query docs).length = docs.length ∧
        (∀ d ∈ run cfg oracle query docs,
          ∃ q0, dictGet (d.metadata.getD []) "rerank_score" =
            some (.mnum q0)) ∧
        (run cfg oracle query docs).Pairwise
          (fun a b => rerankScoreD b ≤ rerankScoreD a)) := by
  refine ⟨rfl, fun body => rfl, rfl, ?_, ?_⟩
  · intro j he
    simp [scoreRelevance, he]
  · intro cfg oracle query docs _
    refine ⟨run_length cfg oracle query docs, ?_, run_pairwise cfg oracle query docs⟩
    intro d hd
    rcases mem_run hd with ⟨p, hp, rfl⟩
    rcases mem_scoredDocs hp with ⟨src, _, hpe⟩
    refine ⟨p.1, ?_⟩
    rw [hpe]
    simp [mkScoredDoc, dictGet_dictSet_self]

/-- Witness for C5 at concrete inputs. -/
theorem error_absorbed_witness :
    (extractContent (.jobj []) = none) ∧
    scoreRelevance (.response true (some (.jobj []))) = 1/2 ∧
    ([(⟨"a", none⟩ : Document)] ≠ []) ∧
    ((run {} (fun _ _ _ => .transportError) "q" [⟨"a", none⟩]).length =
        ([(⟨"a", none⟩ : Document)]).length ∧
      (∀ d ∈ run {} (fun _ _ _ => .transportError) "q" [⟨"a", none⟩],
        ∃ q0, dictGet (d.metadata.getD []) "rerank_score" =
          some (.mnum q0)) ∧
      (run {} (fun _ _ _ => .transportError) "q" [⟨"a", none⟩]).Pairwise
        (fun a b => rerankScoreD b ≤ rerankScoreD a)) :=
  ⟨rfl, error_absorbed.2.2.2.1 (.jobj []) rfl, by simp,
    error_absorbed.2.2.2.2 {} (fun _ _ _ => .transportError) "q"
      [⟨"a", none⟩] (by simp)⟩

theorem scoringCalls_eq_map (cfg : Config) (query : String)
    (docs : List Document) :
    scoringCalls cfg query docs =
      docs.map (fun d => (query, truncateText cfg d.text)) := by
  induction docs with
  | nil => rfl
  | cons doc rest ih => simp [scoringCalls, ih]

/-- C7 counterexample: with the max input length configured as 0 (non-null)
and a text of length 1 > 0, the text is passed to the scoring call
unchanged, not cut to the first 0 characters (the empty string). -/
theorem truncation_counterexample :
    scoringCalls { max_tokens := some 0 } "q" [⟨"a", none⟩] = [("q", "a")] ∧
    String.mk (("a" : String).data.take 0) = "" ∧ ("a" : String) ≠ "" :=
  ⟨rfl, rfl, by decide⟩

/-- C7 amended: when the configured max input length N is positive, every
scoring call receives the document text cut to its first N characters
whenever it is longer than N (and unchanged otherwise), a text of length at
most N is never altered, and every document returned by `run` keeps the
original, untruncated text of an input document. -/
theorem truncation_amended (cfg : Config) (oracle : Oracle) (query : String)
    (docs : List Document) (n : Int) (hn : cfg.max_tokens = some n)
    (hpos : 0 < n) :
    (scoringCalls cfg query docs = docs.map (fun d =>
      (query, if (d.text.length : Int) > n
              then String.mk (d.text.data.take n.toNat) else d.text))) ∧
    (∀ s : String, (s.length : Int) ≤ n → truncateText cfg s = s) ∧
    (∀ d ∈ run cfg oracle query docs, ∃ src ∈ docs, d.text = src.text) := by
  have htr : ∀ s : String, truncateText cfg s =
      if ((s.length : Int) > n) then String.mk (s.data.take n.toNat) else s := by
    intro s
    simp only [truncateText, hn]
    by_cases hl : (s.length : Int) > n
    · rw [if_pos ⟨ne_of_gt hpos, hl⟩, if_pos hl, pySliceTo, if_pos (le_of_lt hpos)]
    · rw [if_neg ?_, if_neg hl]
      intro hcon
      exact hl hcon.2
  refine ⟨?_, ?_, ?_⟩
  · rw [scoringCalls_eq_map]
    apply List.map_congr_left
    intro d _
    rw [htr]
  · intro s hs
    rw [htr, if_neg (not_lt.mpr hs)]
  · intro d hd
    rcases mem_run hd with ⟨p, hp, rfl⟩
    rcases mem_scoredDocs hp with ⟨src, hsrc, hpe⟩
    exact ⟨src, hsrc, by rw [hpe]; rfl⟩

/-- Witness for the amended C7 at a concrete input. -/
theorem truncation_amended_witness :
    (({ max_tokens := some 1 } : Config).max_tokens = some 1) ∧ (0 < (1 : Int)) ∧
    ((scoringCalls { max_tokens := some 1 } "q" [⟨"ab", none⟩] =
      [(⟨"ab", none⟩ : Document)].map (fun d =>
        ("q", if (d.text.length : Int) > 1
              then String.mk (d.text.data.take (1 : Int).toNat) else d.text))) ∧
    (∀ s : String, (s.length : Int) ≤ 1 →
      truncateText { max_tokens := some 1 } s = s) ∧
    (∀ d ∈ run { max_tokens := some 1 } (fun _ _ _ => .transportError) "q"
        [⟨"ab", none⟩], ∃ src ∈ [(⟨"ab", none⟩ : Document)], d.text = src.text)) :=
  ⟨rfl, by norm_num,
    truncation_amended { max_tokens := some 1 } (fun _ _ _ => .transportError)
      "q" [⟨"ab", none⟩] 1 rfl (by norm_num)⟩

/-- C8: `run` on the empty document list returns it unchanged and the
request loop issues zero scoring calls. -/
theorem empty_input (cfg : Config) (oracle : Oracle) (query : String) :
    run cfg oracle query [] = [] ∧ scoringCalls cfg query [] = [] :=
  ⟨rfl, rfl⟩

/-- C9: `run` never mutates an input document (the embedding is a pure
function of the input list, which is returned untouched); each output
document is a fresh record carrying the text of its source document and a
metadata dictionary equal to a copy of the source's metadata (`{}` for
`None`) with `rerank_score` added or overwritten, all other keys unchanged. -/
theorem no_mutation (cfg : Config) (oracle : Oracle) (query : String)
    (docs : List Document) (d : Document)
    (hd : d ∈ run cfg oracle query docs) :
    ∃ src ∈ docs, d.text = src.text ∧
      d.metadata = some (dictSet (src.metadata.getD []) "rerank_score"
        (.mnum (rerankScoreD d))) ∧
      dictGet (d.metadata.getD []) "rerank_score" =
        some (.mnum (rerankScoreD d)) ∧
      ∀ k, k ≠ "rerank_score" →
        dictGet (d.metadata.getD []) k = dictGet (src.metadata.getD []) k := by
  rcases mem_run hd with ⟨p, hp, rfl⟩
  rcases mem_scoredDocs hp with ⟨src, hsrc, hpe⟩
  have hsc : rerankScoreD p.2 = p.1 := score_of_mem_scoredDocs hp
  refine ⟨src, hsrc, ?_, ?_, ?_, ?_⟩
  · rw [hpe]; rfl
  · rw [hsc, hpe]; rfl
  · rw [hsc, hpe, mkScoredDoc]
    simp [dictGet_dictSet_self]
  · intro k hk
    rw [hpe, mkScoredDoc]
    simp [dictGet_dictSet_ne _ _ _ _ hk]

/-- Witness for C9 at a concrete input. -/
theorem no_mutation_witness :
    ((⟨"a", some [("rerank_score", .mnum (1/2))]⟩ : Document) ∈
        run {} (fun _ _ _ => .transportError) "q" [⟨"a", none⟩]) ∧
    (∃ src ∈ [(⟨"a", none⟩ : Document)],
      (⟨"a", some [("rerank_score", .mnum (1/2))]⟩ : Document).text = src.text ∧
      (⟨"a", some [("rerank_score", .mnum (1/2))]⟩ : Document).metadata =
        some (dictSet (src.metadata.getD []) "rerank_score"
          (.mnum (rerankScoreD ⟨"a", some [("rerank_score", .mnum (1/2))]⟩))) ∧
      dictGet ((⟨"a", some [("rerank_score", .mnum (1/2))]⟩ : Document).metadata.getD [])
          "rerank_score" =
        some (.mnum (rerankScoreD ⟨"a", some [("rerank_score", .mnum (1/2))]⟩)) ∧
      ∀ k, k ≠ "rerank_score" →
        dictGet ((⟨"a", some [("rerank_score", .mnum (1/2))]⟩ : Document).metadata.getD []) k =
          dictGet (src.metadata.getD []) k) := by
  have hmem : (⟨"a", some [("rerank_score", .mnum (1/2))]⟩ : Document) ∈
      run {} (fun _ _ _ => .transportError) "q" [⟨"a", none⟩] := by
    rw [show run {} (fun _ _ _ => .transportError) "q" [⟨"a", none⟩] =
      [⟨"a", some [("rerank_score", .mnum (1/2))]⟩] from rfl]
    exact List.mem_singleton.mpr rfl
  exact ⟨hmem, no_mutation {} (fun _ _ _ => .transportError) "q"
    [⟨"a", none⟩] _ hmem⟩

/-- C10: a configured max input length equal to 0 is falsy in the guard of
`_truncate_text`, so it disables truncation entirely: every text is
returned unchanged. -/
theorem truncation_zero (cfg : Config) (text : String)
    (h : cfg.max_tokens = some 0) : truncateText cfg text = text := by
  simp [truncateText, h]

/-- Witness for C10 at a concrete input. -/
theorem truncation_zero_witness :
    (({ max_tokens := some 0 } : Config).max_tokens = some 0) ∧
      truncateText { max_tokens := some 0 } "hello" = "hello" :=
  ⟨rfl, truncation_zero { max_tokens := some 0 } "hello" rfl⟩

theorem clamp01_fin_of_one_le {q : ℚ} (h : 1 ≤ q) : clamp01 (.fin q) = 1 := by
  have h1 : ¬(q < 1) := not_lt.mpr h
  simp [clamp01, clampVal, pyMin1, pyMax0, pyLt, h1, zero_lt_one]

theorem clamp01_fin_of_nonpos {q : ℚ} (h : q ≤ 0) : clamp01 (.fin q) = 0 := by
  have h1 : q < 1 := lt_of_le_of_lt h zero_lt_one
  have h0 : ¬((0 : ℚ) < q) := not_lt.mpr h
  simp [clamp01, clampVal, pyMin1, pyMax0, pyLt, h1, h0]

theorem clamp01_fin_of_mem {q : ℚ} (h0 : 0 ≤ q) (h1 : q ≤ 1) :
    clamp01 (.fin q) = q := by
  rcases lt_or_eq_of_le h1 with hlt | rfl
  · rcases lt_or_eq_of_le h0 with hgt | rfl
    · simp [clamp01, clampVal, pyMin1, pyMax0, pyLt, hlt, hgt]
    · simp [clamp01, clampVal, pyMin1, pyMax0, pyLt, hlt]
  · simp [clamp01, clampVal, pyMin1, pyMax0, pyLt, lt_irrefl, zero_lt_one]

/-- C6 counterexample: on the reply "a02" the direct float parse fails and
the fallback regex matches "02" - a substring that is none of the five
claimed shapes - scoring clamp(2.0) = 1, whereas the first claimed-shape
substring is "0", which parses and clamps to 0. -/
theorem fallback_counterexample :
    pyFloat? "a02" = none ∧
    findFirst ("a02".data) = some ['0', '2'] ∧
    isShape5 ['0', '2'] = false ∧
    specFirstShape ("a02".data) = some ['0'] ∧
    parseScore "a02" = 1 ∧
    specC6Score "a02" = 0 ∧
    parseScore "a02" ≠ specC6Score "a02" := by
  have h1 : pyFloat? "a02" = none := rfl
  have h2 : findFirst ("a02".data) = some ['0', '2'] := rfl
  have h3 : pyFloatChars? ['0', '2'] =
      some (.fin (decOfParts ['0', '2'] [] * (10 : ℚ) ^ (0 : ℤ))) := rfl
  have h4 : specFirstShape ("a02".data) = some ['0'] := rfl
  have hv : decOfParts ['0', '2'] [] * (10 : ℚ) ^ (0 : ℤ) = 2 := by
    have hn : natOfDigits ['0', '2'] = 2 := rfl
    have hz : natOfDigits ([] : List Char) = 0 := rfl
    rw [decOfParts, hn, hz]
    norm_num
  have hps : parseScore "a02" = 1 := by
    simp only [parseScore, h1, h2, h3, hv]
    exact clamp01_fin_of_one_le (by norm_num)
  have hv0 : decValue ['0'] = 0 := by
    have ha : decValue ['0'] = decOfParts ['0'] [] := rfl
    have hn : natOfDigits ['0'] = 0 := rfl
    have hz : natOfDigits ([] : List Char) = 0 := rfl
    rw [ha, decOfParts, hn, hz]
    norm_num
  have hsp : specC6Score "a02" = 0 := by
    simp only [specC6Score, h4, hv0]
    exact clamp01_fin_of_nonpos (by norm_num)
  exact ⟨h1, h2, rfl, h4, hps, hsp, by rw [hps, hsp]; norm_num⟩

theorem digitsAfterOptDot_of_ne {d : Char} (ds : List Char) (h : ¬d = '.') :
    digitsAfterOptDot (d :: ds) = (d :: ds).all Char.isDigit := by
  simp [digitsAfterOptDot, h]

theorem takeWhile_all_digits (l : List Char) :
    (l.takeWhile Char.isDigit).all Char.isDigit = true := by
  induction l with
  | nil => rfl
  | cons c rest ih =>
      by_cases h : c.isDigit <;> simp [List.takeWhile_cons, h, ih]

theorem takeWhile_eq_self_of_all (l : List Char)
    (h : ∀ c ∈ l, c.isDigit = true) : l.takeWhile Char.isDigit = l := by
  induction l with
  | nil => rfl
  | cons c rest ih =>
      rw [List.takeWhile_cons, if_pos (h c (List.mem_cons_self c rest))]
      rw [ih (fun x hx => h x (List.mem_cons_of_mem c hx))]

theorem dropWhile_eq_self_of_head (p : Char → Bool) (l : List Char)
    (h : ∀ c ∈ l, p c = false) : l.dropWhile p = l := by
  cases l with
  | nil => rfl
  | cons c rest => rw [List.dropWhile_cons, h c (List.mem_cons_self c rest)]; rfl

theorem stripChars_eq_self (l : List Char) (h : ∀ c ∈ l, isSpace c = false) :
    stripChars l = l := by
  rw [stripChars, dropWhile_eq_self_of_head isSpace l h,
    dropWhile_eq_self_of_head isSpace l.reverse
      (fun c hc => h c (List.mem_reverse.mp hc)),
    List.reverse_reverse]

theorem isSpace_eq_false_of_isDigit {c : Char} (h : c.isDigit = true) :
    isSpace c = false := by
  cases hs : isSpace c
  · rfl
  · exfalso
    simp only [isSpace, Bool.or_eq_true, decide_eq_true_eq] at hs
    rcases hs with ((((rfl | rfl) | rfl) | rfl) | rfl) | rfl <;>
      exact absurd h (by decide)

theorem dgroupCont_all_digits (ds : List Char)
    (h : ∀ c ∈ ds, c.isDigit = true) : dgroupCont ds = (ds, []) := by
  induction ds with
  | nil => rfl
  | cons d rest ih =>
      cases rest with
      | nil => simp [dgroupCont, h d (List.mem_cons_self d [])]
      | cons e rest2 =>
          rw [dgroupCont]
          rw [if_pos (h d (List.mem_cons_self d (e :: rest2)))]
          rw [ih (fun x hx => h x (List.mem_cons_of_mem d hx))]

theorem dgroup?_all_digits (c : Char) (ds : List Char) (hc : c.isDigit = true)
    (h : ∀ x ∈ ds, x.isDigit = true) :
    dgroup? (c :: ds) = some (c :: ds, []) := by
  simp [dgroup?, hc, dgroupCont_all_digits ds h]

theorem dgroupCont_dot (ds : List Char) : dgroupCont ('.' :: ds) = ([], '.' :: ds) := by
  cases ds with
  | nil => rfl
  | cons e rest2 => rfl

theorem dropWhile_eq_nil_of_all (l : List Char)
    (h : ∀ c ∈ l, c.isDigit = true) : l.dropWhile Char.isDigit = [] := by
  induction l with
  | nil => rfl
  | cons c rest ih =>
      rw [List.dropWhile_cons, if_pos (h c (List.mem_cons_self c rest))]
      exact ih (fun x hx => h x (List.mem_cons_of_mem c hx))

theorem lcIs_eq_false_head (c k : Char) (cs kw : List Char)
    (h : ¬c.toLower = k) : lcIs (c :: cs) (k :: kw) = false := by
  simp [lcIs, h]

theorem decValue_digits (c : Char) (ds : List Char) (hc : c.isDigit = true)
    (h : ∀ x ∈ ds, x.isDigit = true) :
    decValue (c :: ds) = decOfParts (c :: ds) [] := by
  have hall : ∀ x ∈ c :: ds, x.isDigit = true := by
    intro x hx
    rcases List.mem_cons.mp hx with rfl | hx2
    · exact hc
    · exact h x hx2
  simp only [decValue]
  rw [takeWhile_eq_self_of_all _ hall, dropWhile_eq_nil_of_all _ hall]

theorem decValue_dotted (ds : List Char)
    (h : ∀ x ∈ ds, x.isDigit = true) :
    decValue ('.' :: ds) = decOfParts [] ds := by
  simp only [decValue]
  rw [List.takeWhile_cons, List.dropWhile_cons]
  simp only [show Char.isDigit '.' = false from rfl, if_false, Bool.false_eq_true]
  rw [takeWhile_eq_self_of_all _ h]

theorem decValue_optdot (c : Char) (ds : List Char) (hc : c.isDigit = true)
    (h : ∀ x ∈ ds, x.isDigit = true) :
    decValue (c :: '.' :: ds) = decOfParts [c] ds := by
  simp only [decValue]
  rw [List.takeWhile_cons, List.dropWhile_cons]
  simp only [hc, if_true]
  rw [List.takeWhile_cons, List.dropWhile_cons]
  simp only [show Char.isDigit '.' = false from rfl, if_false, Bool.false_eq_true]
  rw [takeWhile_eq_self_of_all _ h]

theorem pyFloatChars?_digits (c : Char) (ds : List Char)
    (hc : c = '0' ∨ c = '1') (h : ∀ x ∈ ds, x.isDigit = true) :
    pyFloatChars? (c :: ds) = some (.fin (decValue (c :: ds))) := by
  have hcd : c.isDigit = true := by rcases hc with rfl | rfl <;> decide
  have hspace : ∀ x ∈ c :: ds, isSpace x = false := by
    intro x hx
    rcases List.mem_cons.mp hx with rfl | hx2
    · exact isSpace_eq_false_of_isDigit hcd
    · exact isSpace_eq_false_of_isDigit (h x hx2)
  have hstrip := stripChars_eq_self (c :: ds) hspace
  have hman : mantissa? (c :: ds) = some (decOfParts (c :: ds) [], []) := by
    unfold mantissa?
    rw [dgroup?_all_digits c ds hcd h]
  have hexp : exponent? ([] : List Char) = some (0, []) := rfl
  have hdv := decValue_digits c ds hcd h
  rcases hc with rfl | rfl <;>
  · simp only [pyFloatChars?, hstrip,
      show ∀ t, signSplit ('0' :: t) = (false, '0' :: t) from fun t => rfl,
      show ∀ t, signSplit ('1' :: t) = (false, '1' :: t) from fun t => rfl,
      lcIs_eq_false_head '0' 'i' ds ['n', 'f'] (by decide),
      lcIs_eq_false_head '1' 'i' ds ['n', 'f'] (by decide),
      lcIs_eq_false_head '0' 'i' ds ['n', 'f', 'i', 'n', 'i', 't', 'y'] (by decide),
      lcIs_eq_false_head '1' 'i' ds ['n', 'f', 'i', 'n', 'i', 't', 'y'] (by decide),
      lcIs_eq_false_head '0' 'n' ds ['a', 'n'] (by decide),
      lcIs_eq_false_head '1' 'n' ds ['a', 'n'] (by decide),
      Bool.or_self, Bool.false_eq_true, if_false, hman, hexp,
      List.isEmpty_nil, if_true, hdv]
    norm_num

theorem pyFloatChars?_dotted (ds : List Char) (hne : ds ≠ [])
    (h : ∀ x ∈ ds, x.isDigit = true) :
    pyFloatChars? ('.' :: ds) = some (.fin (decValue ('.' :: ds))) := by
  have hspace : ∀ x ∈ '.' :: ds, isSpace x = false := by
    intro x hx
    rcases List.mem_cons.mp hx with rfl | hx2
    · decide
    · exact isSpace_eq_false_of_isDigit (h x hx2)
  have hstrip := stripChars_eq_self ('.' :: ds) hspace
  obtain ⟨d, ds2, rfl⟩ : ∃ d ds2, ds = d :: ds2 := by
    cases ds with
    | nil => exact absurd rfl hne
    | cons d ds2 => exact ⟨d, ds2, rfl⟩
  have hman : mantissa? ('.' :: d :: ds2) =
      some (decOfParts [] (d :: ds2), []) := by
    have hdig := dgroup?_all_digits d ds2 (h d (List.mem_cons_self d ds2))
      (fun x hx => h x (List.mem_cons_of_mem d hx))
    simp only [mantissa?, show dgroup? ('.' :: d :: ds2) = none from rfl, hdig]
  have hexp : exponent? ([] : List Char) = some (0, []) := rfl
  have hdv := decValue_dotted (d :: ds2) h
  simp only [pyFloatChars?, hstrip,
    show ∀ t, signSplit ('.' :: t) = (false, '.' :: t) from fun t => rfl,
    lcIs_eq_false_head '.' 'i' (d :: ds2) ['n', 'f'] (by decide),
    lcIs_eq_false_head '.' 'i' (d :: ds2) ['n', 'f', 'i', 'n', 'i', 't', 'y'] (by decide),
    lcIs_eq_false_head '.' 'n' (d :: ds2) ['a', 'n'] (by decide),
    Bool.or_self, Bool.false_eq_true, if_false, hman, hexp,
    List.isEmpty_nil, if_true, hdv]
  norm_num

theorem pyFloatChars?_optdot (c : Char) (ds : List Char)
    (hc : c = '0' ∨ c = '1') (h : ∀ x ∈ ds, x.isDigit = true) :
    pyFloatChars? (c :: '.' :: ds) = some (.fin (decValue (c :: '.' :: ds))) := by
  have hcd : c.isDigit = true := by rcases hc with rfl | rfl <;> decide
  have hspace : ∀ x ∈ c :: '.' :: ds, isSpace x = false := by
    intro x hx
    rcases List.mem_cons.mp hx with rfl | hx2
    · exact isSpace_eq_false_of_isDigit hcd
    · rcases List.mem_cons.mp hx2 with rfl | hx3
      · decide
      · exact isSpace_eq_false_of_isDigit (h x hx3)
  have hstrip := stripChars_eq_self (c :: '.' :: ds) hspace
  have hdg : dgroup? (c :: '.' :: ds) = some ([c], '.' :: ds) := by
    simp [dgroup?, hcd, dgroupCont_dot]
  have hman : mantissa? (c :: '.' :: ds) = some (decOfParts [c] ds, []) := by
    cases ds with
    | nil =>
        simp only [mantissa?, hdg, show dgroup? ([] : List Char) = none from rfl]
    | cons d ds2 =>
        have hdig := dgroup?_all_digits d ds2 (h d (List.mem_cons_self d ds2))
          (fun x hx => h x (List.mem_cons_of_mem d hx))
        simp only [mantissa?, hdg, hdig]
  have hexp : exponent? ([] : List Char) = some (0, []) := rfl
  have hdv := decValue_optdot c ds hcd h
  rcases hc with rfl | rfl <;>
  · simp only [pyFloatChars?, hstrip,
      show ∀ t, signSplit ('0' :: t) = (false, '0' :: t) from fun t => rfl,
      show ∀ t, signSplit ('1' :: t) = (false, '1' :: t) from fun t => rfl,
      lcIs_eq_false_head '0' 'i' ('.' :: ds) ['n', 'f'] (by decide),
      lcIs_eq_false_head '1' 'i' ('.' :: ds) ['n', 'f'] (by decide),
      lcIs_eq_false_head '0' 'i' ('.' :: ds) ['n', 'f', 'i', 'n', 'i', 't', 'y'] (by decide),
      lcIs_eq_false_head '1' 'i' ('.' :: ds) ['n', 'f', 'i', 'n', 'i', 't', 'y'] (by decide),
      lcIs_eq_false_head '0' 'n' ('.' :: ds) ['a', 'n'] (by decide),
      lcIs_eq_false_head '1' 'n' ('.' :: ds) ['a', 'n'] (by decide),
      Bool.or_self, Bool.false_eq_true, if_false, hman, hexp,
      List.isEmpty_nil, if_true, hdv]
    norm_num

theorem matchAlt1_shape {cs m : List Char} (h : matchAlt1 cs = some m) :
    isMatchedShape m = true := by
  cases cs with
  | nil => simp [matchAlt1] at h
  | cons c1 tail =>
      cases tail with
      | nil => simp [matchAlt1] at h
      | cons c2 rest =>
          by_cases h1 : c1 = '0' ∧ c2 = '.'
          · obtain ⟨rfl, rfl⟩ := h1
            by_cases h2 : (rest.takeWhile Char.isDigit).isEmpty
            · simp [matchAlt1, h2] at h
            · simp only [matchAlt1, and_self, if_true, if_pos trivial, if_neg h2,
                Option.some.injEq, reduceIte] at h
              subst h
              simp [isMatchedShape, digitsAfterOptDot, takeWhile_all_digits]
          · by_cases h3 : c1 = '.' ∧ c2.isDigit
            · obtain ⟨rfl, hdig⟩ := h3
              simp [matchAlt1, h1, hdig] at h
              subst h
              simp [isMatchedShape, hdig, takeWhile_all_digits]
            · simp [matchAlt1, h1, h3] at h

theorem matchAlt2_shape {cs m : List Char} (h : matchAlt2 cs = some m) :
    isMatchedShape m = true := by
  cases cs with
  | nil => simp [matchAlt2] at h
  | cons c rest =>
      by_cases h1 : c = '0' ∨ c = '1'
      · have hne : ¬c = '.' := by rcases h1 with rfl | rfl <;> decide
        cases rest with
        | nil =>
            simp only [matchAlt2, if_pos h1, Option.some.injEq] at h
            subst h
            simp [isMatchedShape, hne, h1, digitsAfterOptDot]
        | cons d rest2 =>
            by_cases hd : d = '.'
            · subst hd
              simp only [matchAlt2, if_pos h1, if_pos rfl,
                Option.some.injEq, reduceIte] at h
              subst h
              simp [isMatchedShape, hne, h1, digitsAfterOptDot,
                takeWhile_all_digits]
            · simp only [matchAlt2, if_pos h1, if_neg hd,
                Option.some.injEq] at h
              subst h
              simp only [isMatchedShape, if_neg hne, if_pos h1]
              rw [List.takeWhile_cons]
              by_cases hdd : d.isDigit
              · rw [if_pos hdd, digitsAfterOptDot_of_ne _ hd]
                simp [hdd, takeWhile_all_digits, List.takeWhile_cons]
              · rw [if_neg hdd]
                simp [digitsAfterOptDot]
      · simp [matchAlt2, h1] at h

theorem matchAt_shape {cs m : List Char} (h : matchAt cs = some m) :
    isMatchedShape m = true := by
  cases h1 : matchAlt1 cs with
  | some m2 =>
      rw [matchAt, h1] at h
      injection h with hm
      subst hm
      exact matchAlt1_shape h1
  | none =>
      rw [matchAt, h1] at h
      exact matchAlt2_shape h

theorem pyFloat_of_matched {m : List Char} (h : isMatchedShape m = true) :
    pyFloatChars? m = some (.fin (decValue m)) := by
  cases m with
  | nil => simp [isMatchedShape] at h
  | cons c rest =>
      by_cases hdot : c = '.'
      · subst hdot
        rw [show isMatchedShape ('.' :: rest) =
            (!rest.isEmpty && rest.all Char.isDigit) from rfl,
          Bool.and_eq_true, Bool.not_eq_true'] at h
        obtain ⟨hne, hall⟩ := h
        refine pyFloatChars?_dotted rest ?_ (List.all_eq_true.mp hall)
        intro hnil
        subst hnil
        simp at hne
      · by_cases hc : c = '0' ∨ c = '1'
        · simp only [isMatchedShape, if_neg hdot, if_pos hc] at h
          cases rest with
          | nil => exact pyFloatChars?_digits c [] hc (by simp)
          | cons d ds2 =>
              by_cases hd : d = '.'
              · subst hd
                have h2 : ds2.all Char.isDigit = true := by
                  simpa [digitsAfterOptDot] using h
                exact pyFloatChars?_optdot c ds2 hc (List.all_eq_true.mp h2)
              · rw [digitsAfterOptDot_of_ne ds2 hd] at h
                exact pyFloatChars?_digits c (d :: ds2) hc (List.all_eq_true.mp h)
        · simp [isMatchedShape, hdot, hc] at h

theorem matchAt_isSome (c : Char) (rest : List Char) :
    (matchAt (c :: rest)).isSome =
      (c = '0' || c = '1' || (c = '.' && headDigit rest)) := by
  by_cases h0 : c = '0'
  · subst h0
    cases hm : matchAlt1 ('0' :: rest) with
    | some m => simp [matchAt, hm]
    | none =>
        cases rest with
        | nil => simp [matchAt, hm, matchAlt2]
        | cons d r2 =>
            by_cases hd : d = '.'
            · subst hd
              simp [matchAt, hm, matchAlt2]
            · simp [matchAt, hm, matchAlt2, hd]
  · by_cases h1 : c = '1'
    · subst h1
      cases hm : matchAlt1 ('1' :: rest) with
      | some m => simp [matchAt, hm]
      | none =>
          cases rest with
          | nil => simp [matchAt, hm, matchAlt2]
          | cons d r2 =>
              by_cases hd : d = '.'
              · subst hd
                simp [matchAt, hm, matchAlt2]
              · simp [matchAt, hm, matchAlt2, hd]
    · by_cases hdot : c = '.'
      · subst hdot
        cases rest with
        | nil => simp [matchAt, matchAlt1, matchAlt2, headDigit]
        | cons d r2 =>
            by_cases hd : d.isDigit <;>
              simp [matchAt, matchAlt1, matchAlt2, headDigit, hd]
      · cases rest with
        | nil => simp [matchAt, matchAlt1, matchAlt2, h0, h1, hdot]
        | cons d r2 =>
            simp [matchAt, matchAlt1, matchAlt2, h0, h1, hdot, headDigit]

theorem findFirst_eq_none_iff (cs : List Char) :
    findFirst cs = none ↔ hasShape cs = false := by
  induction cs with
  | nil => simp [findFirst, hasShape]
  | cons c rest ih =>
      cases hm : matchAt (c :: rest) with
      | some m =>
          have hstart : (c = '0' || c = '1' || (c = '.' && headDigit rest)) = true := by
            rw [← matchAt_isSome c rest, hm]
            rfl
          simp [findFirst, hm, hasShape, hstart]
      | none =>
          have hstart : (c = '0' || c = '1' || (c = '.' && headDigit rest)) = false := by
            rw [← matchAt_isSome c rest, hm]
            rfl
          simp [findFirst, hm, hasShape, hstart, ih]

theorem findFirst_leftmost {cs m : List Char} (h : findFirst cs = some m) :
    ∃ k, matchAt (cs.drop k) = some m ∧
      ∀ i < k, matchAt (cs.drop i) = none := by
  induction cs with
  | nil => simp [findFirst] at h
  | cons c rest ih =>
      cases hm : matchAt (c :: rest) with
      | some m2 =>
          simp only [findFirst, hm] at h
          refine ⟨0, ?_, ?_⟩
          · rw [List.drop_zero, hm, h]
          · intro i hi
            exact absurd hi (Nat.not_lt_zero i)
      | none =>
          simp only [findFirst, hm] at h
          obtain ⟨k, hk, hlt⟩ := ih h
          refine ⟨k + 1, ?_, ?_⟩
          · simpa using hk
          · intro i hi
            cases i with
            | zero => simpa using hm
            | succ j => simpa using hlt j (Nat.lt_of_succ_lt_succ hi)

theorem headDigit_take {j : Nat} {l : List Char}
    (h : headDigit (l.take j) = true) : headDigit l = true := by
  cases l with
  | nil => simp [headDigit] at h
  | cons d r2 =>
      cases j with
      | zero => simp [headDigit] at h
      | succ j2 => simpa [headDigit] using h

theorem isShape5_start {c : Char} {t : List Char}
    (h : isShape5 (c :: t) = true) :
    c = '0' ∨ c = '1' ∨ (c = '.' ∧ headDigit t = true) := by
  by_cases h0 : c = '0'
  · exact Or.inl h0
  · by_cases h1 : c = '1'
    · exact Or.inr (Or.inl h1)
    · by_cases hd : c = '.'
      · subst hd
        refine Or.inr (Or.inr ⟨rfl, ?_⟩)
        cases t with
        | nil => exact absurd h (by decide)
        | cons d r2 =>
            rw [show isShape5 ('.' :: d :: r2) =
                (!(d :: r2).isEmpty && (d :: r2).all Char.isDigit) from rfl,
              Bool.and_eq_true] at h
            simp only [List.all_cons, Bool.and_eq_true] at h
            simp [headDigit, h.2.1]
      · simp [isShape5, h0, h1, hd] at h

theorem shapeAt_none_iff (cs : List Char) :
    shapeAt cs = none ↔ matchAt cs = none := by
  constructor
  · intro h
    cases hm : matchAt cs with
    | none => rfl
    | some m =>
        exfalso
        rw [shapeAt, List.find?_eq_none] at h
        cases cs with
        | nil => simp [matchAt, matchAlt1, matchAlt2] at hm
        | cons c rest =>
            have hstart : (c = '0' || c = '1' || (c = '.' && headDigit rest)) = true := by
              rw [← matchAt_isSome c rest, hm]
              rfl
            simp only [Bool.or_eq_true, Bool.and_eq_true,
              decide_eq_true_eq] at hstart
            rcases hstart with (rfl | rfl) | ⟨rfl, hdig⟩
            · refine h ['0'] ?_ (by decide)
              refine List.mem_map.mpr ⟨1, ?_, by simp⟩
              simp [List.mem_reverse, List.mem_range]
            · refine h ['1'] ?_ (by decide)
              refine List.mem_map.mpr ⟨1, ?_, by simp⟩
              simp [List.mem_reverse, List.mem_range]
            · cases rest with
              | nil => simp [headDigit] at hdig
              | cons d r2 =>
                  refine h ['.', d] ?_ ?_
                  · refine List.mem_map.mpr ⟨2, ?_, by simp⟩
                    simp [List.mem_reverse, List.mem_range]
                  · rw [show isShape5 ['.', d] = (!([d] : List Char).isEmpty &&
                        ([d] : List Char).all Char.isDigit) from rfl]
                    simp [headDigit] at hdig
                    simp [hdig]
  · intro h
    cases hs : shapeAt cs with
    | none => rfl
    | some m =>
        exfalso
        rw [shapeAt] at hs
        have hsh : isShape5 m = true := List.find?_some hs
        have hmem := List.mem_of_find?_eq_some hs
        rcases List.mem_map.mp hmem with ⟨k, _, rfl⟩
        cases cs with
        | nil =>
            rw [List.take_nil] at hsh
            exact absurd hsh (by decide)
        | cons c rest =>
            cases k with
            | zero =>
                rw [List.take_zero] at hsh
                exact absurd hsh (by decide)
            | succ j =>
                rw [List.take_succ_cons] at hsh
                have hstart := isShape5_start hsh
                have : (matchAt (c :: rest)).isSome = false := by
                  rw [h]
                  rfl
                rw [matchAt_isSome] at this
                rcases hstart with rfl | rfl | ⟨rfl, hdig⟩
                · simp at this
                · simp at this
                · rw [headDigit_take hdig] at this
                  simp at this

theorem specFirstShape_none_iff (cs : List Char) :
    specFirstShape cs = none ↔ findFirst cs = none := by
  induction cs with
  | nil => simp [specFirstShape, findFirst]
  | cons c rest ih =>
      cases hm : matchAt (c :: rest) with
      | some m =>
          have hs : ¬shapeAt (c :: rest) = none := by
            rw [shapeAt_none_iff, hm]
            simp
          cases hsa : shapeAt (c :: rest) with
          | none => exact absurd hsa hs
          | some m2 => simp [specFirstShape, findFirst, hm, hsa]
      | none =>
          have hs : shapeAt (c :: rest) = none := (shapeAt_none_iff _).mpr hm
          simp [specFirstShape, findFirst, hm, hs, ih]

/-- C6 amended: when direct float parsing of the reply fails, the fallback
takes the leftmost match of `0?\.\d+|[01]\.?\d*` (a substring of shape
`.ddd`, `0.ddd`, or the digit `0`/`1` followed by an optional dot and any
run of digits — so, beyond the five claimed shapes, also e.g. `0.`, `1.`,
`02`, `19`), parses it and clamps it into [0, 1]; and the fallback yields
the default 0.5 exactly when the reply contains no substring of the five
claimed shapes. -/
theorem fallback_amended (content : String) (hf : pyFloat? content = none) :
    (∀ m, findFirst content.data = some m →
      parseScore content = clamp01 (.fin (decValue m)) ∧
      isMatchedShape m = true ∧
      ∃ k, matchAt (content.data.drop k) = some m ∧
        ∀ i < k, matchAt (content.data.drop i) = none) ∧
    (findFirst content.data = none → parseScore content = 1/2) ∧
    (findFirst content.data = none ↔ specFirstShape content.data = none) := by
  refine ⟨?_, ?_, (specFirstShape_none_iff content.data).symm⟩
  · intro m hm
    obtain ⟨k, hk, hlt⟩ := findFirst_leftmost hm
    have hsh : isMatchedShape m = true := matchAt_shape hk
    have hpf : pyFloatChars? m = some (.fin (decValue m)) :=
      pyFloat_of_matched hsh
    refine ⟨?_, hsh, k, hk, hlt⟩
    simp only [parseScore, hf, hm, hpf]
  · intro hm
    simp only [parseScore, hf, hm]

/-- Witness for the amended C6 at a concrete input. -/
theorem fallback_amended_witness :
    pyFloat? "a02" = none ∧
    ((∀ m, findFirst ("a02" : String).data = some m →
      parseScore "a02" = clamp01 (.fin (decValue m)) ∧
      isMatchedShape m = true ∧
      ∃ k, matchAt (("a02" : String).data.drop k) = some m ∧
        ∀ i < k, matchAt (("a02" : String).data.drop i) = none) ∧
    (findFirst ("a02" : String).data = none → parseScore "a02" = 1/2) ∧
    (findFirst ("a02" : String).data = none ↔
      specFirstShape ("a02" : String).data = none)) :=
  ⟨rfl, fallback_amended "a02" rfl⟩
